import Mathlib

-- Verification of the route parser in src/extension.ts of react-router-navigator.
-- The parser core (lexing primitives, token scanner, tree builder, path resolver,
-- route projection) is embedded shallowly over `List Char`; character indices are
-- `Nat`, the JavaScript sentinel -1 becomes `Option.none`.

namespace RouteNav

/-- The apostrophe character (U+0027), written via its code point. -/
def apos : Char := Char.ofNat 39

/-- Single-apostrophe string, used to assemble the concrete route texts. -/
def aposS : String := String.mk [apos]

/-- The slash separator string used when joining path parts. -/
def slashStr : String := String.mk ['/']

/-- Characters matched by the JavaScript regex class `\s` (the ones relevant to
route files: ASCII whitespace plus NBSP and BOM). -/
def isJsSpace (c : Char) : Bool :=
  c = ' ' || c = Char.ofNat 9 || c = Char.ofNat 10 || c = Char.ofNat 13 ||
  c = Char.ofNat 11 || c = Char.ofNat 12 || c = Char.ofNat 0xa0 || c = Char.ofNat 0xfeff

/-- Characters matched by the JavaScript regex class `\w` ([A-Za-z0-9_]). -/
def isWordChar (c : Char) : Bool :=
  c.isAlpha || c.isDigit || c = '_'

/-- Loop of `extractStringArg` (src/extension.ts:176-178): skip `[\s,]` characters.
The list argument is the suffix of the text starting at index `i`. -/
def skipSpacesCommasAux : List Char → Nat → Nat
  | [], i => i
  | c :: rest, i =>
    if isJsSpace c || c = ',' then skipSpacesCommasAux rest (i + 1) else i

/-- First index at or after `i` whose character is not whitespace or a comma. -/
def skipSpacesCommas (text : List Char) (i : Nat) : Nat :=
  skipSpacesCommasAux (text.drop i) i

/-- Main loop of `extractStringArg` (src/extension.ts:191-203): consume characters
until the closing quote, unescaping a backslash-escaped character.  Returns the
decoded value and the index just past the closing quote, or `none` when the text
ends first (JavaScript returns null).  A trailing backslash with no following
character reaches the end of the text, which is also the null case. -/
def esaLoop (q : Char) : List Char → Nat → List Char → Option (List Char × Nat)
  | [], _, _ => none
  | c :: rest, i, acc =>
    if c = q then some (acc, i + 1)
    else if c = Char.ofNat 92 then
      match rest with
      | d :: rest2 => esaLoop q rest2 (i + 2) (acc ++ [d])
      | [] => none
    else esaLoop q rest (i + 1) (acc ++ [c])

/-- Result of `extractStringArg`: the decoded string and the index just past the
closing quote. -/
structure ExtractedArg where
  value : String
  endIndex : Nat
deriving DecidableEq

/-- Embeds `extractStringArg` (src/extension.ts:173-206). -/
def extractStringArg (text : List Char) (startFrom : Nat) : Option ExtractedArg :=
  let i := skipSpacesCommas text startFrom
  match text.get? i with
  | none => none
  | some c =>
    if c = '"' || c = apos then
      match esaLoop c (text.drop (i + 1)) (i + 1) [] with
      | some (v, e) => some ⟨String.mk v, e⟩
      | none => none
    else none

/-- Embeds `findMatchingParen` (src/extension.ts:209-233) as a character-at-a-time
state machine.  `q = some quote` with the `esc` flag encodes the source's inner
string-skipping loop (lines 218-228); `q = none` is the outer depth-counting loop.
The list argument is the suffix of the text starting at index `i`. -/
def fmpGo (q : Option Char) (esc : Bool) (depth : Nat) : List Char → Nat → Option Nat
  | [], _ => none
  | c :: rest, i =>
    match q with
    | some quote =>
      if esc then fmpGo (some quote) false depth rest (i + 1)
      else if c = quote then fmpGo none false depth rest (i + 1)
      else if c = Char.ofNat 92 then fmpGo (some quote) true depth rest (i + 1)
      else fmpGo (some quote) false depth rest (i + 1)
    | none =>
      if c = '(' then fmpGo none false (depth + 1) rest (i + 1)
      else if c = ')' then
        if depth = 1 then some i else fmpGo none false (depth - 1) rest (i + 1)
      else if c = '"' || c = apos then fmpGo (some c) false depth rest (i + 1)
      else fmpGo none false depth rest (i + 1)

/-- Embeds `findMatchingParen`: index of the closing parenthesis matching the
opening one at `openIndex`, or `none` when the text ends first (JavaScript -1). -/
def findMatchingParen (text : List Char) (openIndex : Nat) : Option Nat :=
  fmpGo none false 1 (text.drop (openIndex + 1)) (openIndex + 1)

/-- Loop of `findChildrenArray` (src/extension.ts:240-255).  Scans indices below
`cp` (the call's closing parenthesis); a `[` preceded by a comma is returned, a
three-character `...` run is skipped as a unit, everything else advances by one.
An empty suffix ends the scan with `none` (out-of-range characters match none of
the source's tests, so the JavaScript loop also finds nothing there). -/
def fcaAux (cp : Nat) : List Char → Nat → Bool → Option Nat
  | [], _, _ => none
  | c :: rest, i, fc =>
    if i < cp then
      if c = ',' then fcaAux cp rest (i + 1) true
      else if c = '[' && fc then some i
      else if c = '.' && rest.take 2 = ['.', '.'] then
        match rest with
        | _ :: _ :: rest2 => fcaAux cp rest2 (i + 3) fc
        | _ => none
      else fcaAux cp rest (i + 1) fc
    else none

/-- Embeds `findChildrenArray` (src/extension.ts:236-258). -/
def findChildrenArray (text : List Char) (afterFileArg closeParenIndex : Nat) : Option Nat :=
  fcaAux closeParenIndex (text.drop afterFileArg) afterFileArg false

/-- Loop of `text.indexOf(c, i)`: first index at or after `i` holding `c`. -/
def indexOfFromAux (c : Char) : List Char → Nat → Option Nat
  | [], _ => none
  | x :: rest, i => if x = c then some i else indexOfFromAux c rest (i + 1)

/-- Embeds `text.indexOf(c, i)` (JavaScript -1 becomes `none`). -/
def indexOfFrom (text : List Char) (c : Char) (i : Nat) : Option Nat :=
  indexOfFromAux c (text.drop i) i

/-- Loop of `skipJsSpaces`. -/
def skipJsSpacesAux : List Char → Nat → Nat
  | [], i => i
  | c :: rest, i => if isJsSpace c then skipJsSpacesAux rest (i + 1) else i

/-- First index at or after `i` whose character is not JavaScript whitespace. -/
def skipJsSpaces (text : List Char) (i : Nat) : Nat :=
  skipJsSpacesAux (text.drop i) i

/-- The four route-construct kinds.  The source's `'prefix'` literal is the
constructor `pfx`. -/
inductive RouteKind
  | route
  | index
  | layout
  | pfx
deriving DecidableEq

/-- The string value stored in a token's `type` field by the source. -/
def kindName : RouteKind → String
  | RouteKind.route => "route"
  | RouteKind.index => "index"
  | RouteKind.layout => "layout"
  | RouteKind.pfx => "prefix"

/-- Embeds the `RouteToken` interface (src/extension.ts:151-158). -/
structure RouteToken where
  type : RouteKind
  path : String
  startIndex : Nat
  endIndex : Nat
  hasChildren : Bool
  childrenStartIndex : Option Nat
deriving DecidableEq

/-- One position `p` matches the pattern `\b<name>\s*\(` exactly when a word
boundary precedes `p`, the name occurs at `p`, and the next non-whitespace
character after the name is an opening parenthesis. -/
def matchesCallAt (text : List Char) (name : List Char) (p : Nat) : Bool :=
  (decide (p = 0) || !(isWordChar (text.getD (p - 1) ' '))) &&
  decide ((text.drop p).take name.length = name) &&
  decide (text.get? (skipJsSpaces text (p + name.length)) = some '(')

/-- All positions where `\b<name>\s*\(` matches.  Successive `regex.exec` calls
with the `g` flag enumerate exactly these positions: two matches of the pattern
cannot overlap, since the name starts with a word character and the matched run
after `p` holds no word boundary followed by the name. -/
def matchPositions (text : List Char) (name : List Char) : List Nat :=
  (List.range text.length).filter (fun p => matchesCallAt text name p)

/-- Embeds the per-occurrence body of the scanner loop
(src/extension.ts:274-333).  `none` is the source's `continue`: the occurrence
is dropped.  When the pattern matched at `p`, `indexOfFrom` necessarily finds
the parenthesis the pattern itself matched, so its `none` branch is unreachable
from `parseRouteTokens`. -/
def processOccurrence (text : List Char) (kind : RouteKind) (p : Nat) : Option RouteToken :=
  match indexOfFrom text '(' p with
  | none => none
  | some openParenIndex =>
    match findMatchingParen text openParenIndex with
    | none => none
    | some closeParenIndex =>
      match (if kind = RouteKind.route || kind = RouteKind.pfx then
                (extractStringArg text (openParenIndex + 1)).map (fun a => (a.value, a.endIndex))
              else some ("", openParenIndex + 1)) with
      | none => none
      | some (path, afterPathIndex) =>
        let afterFileIndex :=
          if kind = RouteKind.route || kind = RouteKind.layout || kind = RouteKind.index then
            match extractStringArg text afterPathIndex with
            | some fileArg => fileArg.endIndex
            | none => afterPathIndex
          else afterPathIndex
        let children :=
          match kind with
          | RouteKind.pfx => findChildrenArray text afterPathIndex closeParenIndex
          | RouteKind.route => findChildrenArray text afterFileIndex closeParenIndex
          | RouteKind.layout => findChildrenArray text afterFileIndex closeParenIndex
          | RouteKind.index => none
        some { type := kind, path := path, startIndex := p, endIndex := closeParenIndex,
               hasChildren := children.isSome, childrenStartIndex := children }

/-- Stable insertion used to model `Array.prototype.sort` with the comparator
`(a, b) => a.startIndex - b.startIndex`: a new element goes after all elements
whose key is less than or equal to its own. -/
def insertByStart (t : RouteToken) : List RouteToken → List RouteToken
  | [] => [t]
  | x :: xs => if x.startIndex ≤ t.startIndex then x :: insertByStart t xs else t :: x :: xs

/-- Stable sort by `startIndex` (tokens of distinct kinds always have distinct
start indices, so any sort agrees with the source's stable one). -/
def sortByStart (l : List RouteToken) : List RouteToken :=
  l.foldl (fun acc t => insertByStart t acc) []

/-- The scanner's pattern table (src/extension.ts:265-270), in source order. -/
def kindPatterns : List (RouteKind × List Char) :=
  [(RouteKind.route, "route".data), (RouteKind.index, "index".data),
   (RouteKind.layout, "layout".data), (RouteKind.pfx, "prefix".data)]

/-- Embeds `parseRouteTokens` (src/extension.ts:261-340): scan the text for each
kind independently, drop malformed occurrences, then sort by start index. -/
def parseRouteTokens (text : List Char) : List RouteToken :=
  sortByStart (kindPatterns.flatMap
    (fun kp => (matchPositions text kp.2).filterMap (processOccurrence text kp.1)))

/-- The tree builder's candidate-parent test (src/extension.ts:367-372): token `j`
has a children array and token `i`'s span lies strictly inside `j`'s
children-array-to-call-end span. -/
def qualifiesParent (toks : List RouteToken) (i j : Nat) : Bool :=
  match toks.get? j, toks.get? i with
  | some tj, some ti =>
    tj.hasChildren &&
      (match tj.childrenStartIndex with
        | some cs => decide (cs < ti.startIndex) && decide (ti.endIndex ≤ tj.endIndex)
        | none => false)
  | _, _ => false

/-- The inner loop of `buildTree` (src/extension.ts:374-386): no token strictly
between `j` and `i` also qualifies. -/
def isClosestParent (toks : List RouteToken) (i j : Nat) : Bool :=
  (List.range' (j + 1) (i - (j + 1))).all (fun k => !(qualifiesParent toks i k))

/-- The outer reverse scan of `buildTree` (src/extension.ts:365-395): the argument
`m` is one past the next candidate index, so candidates `m-1, m-2, ..., 0` are
examined in order; the scan stops at the first qualifying candidate that also
passes the closest-parent check. -/
def parentScanAux (toks : List RouteToken) (i : Nat) : Nat → Option Nat
  | 0 => none
  | m + 1 =>
    if qualifiesParent toks i m && isClosestParent toks i m then some m
    else parentScanAux toks i m

/-- Index of the parent chosen by `buildTree` for token `i`, or `none` when token
`i` becomes a root. -/
def parentIndex (toks : List RouteToken) (i : Nat) : Option Nat :=
  parentScanAux toks i i

/-- Children of node `j` in ascending token order, as pushed by `buildTree`. -/
def childIndices (toks : List RouteToken) (j : Nat) : List Nat :=
  (List.range toks.length).filter (fun c => parentIndex toks c = some j)

/-- Root nodes in ascending token order, as pushed by `buildTree`. -/
def rootIndices (toks : List RouteToken) : List Nat :=
  (List.range toks.length).filter (fun c => parentIndex toks c = none)

/-- Pre-order traversal of one tree node (the `traverse` closure,
src/extension.ts:422-441), with an explicit fuel bounding the recursion depth.
Every child's index strictly exceeds its parent's, so depth from a node `i` is at
most `toks.length - i` and the fuel `toks.length` used by `routeOrder` is never
exhausted. -/
def traverseNode (toks : List RouteToken) : Nat → Nat → List Nat
  | 0, _ => []
  | fuel + 1, i => i :: (childIndices toks i).flatMap (traverseNode toks fuel)

/-- Indices of all nodes in the order `parseRoutesFile` visits them
(src/extension.ts:443-446). -/
def routeOrder (toks : List RouteToken) : List Nat :=
  (rootIndices toks).flatMap (traverseNode toks toks.length)

/-- The path-part collection of `calculateFullPath` (src/extension.ts:407-415),
walking from the node up through its parents and keeping, in root-to-node
order, the path of every node that is not a layout and has a nonempty path
(the source's truthiness test `current.token.path`).  The fuel bounds the walk;
parents have strictly smaller indices, so fuel `i + 1` is never exhausted. -/
def collectParts (toks : List RouteToken) : Nat → Nat → List String
  | 0, _ => []
  | fuel + 1, i =>
    (match parentIndex toks i with
      | some j => collectParts toks fuel j
      | none => []) ++
    (match toks.get? i with
      | some t => if t.type ≠ RouteKind.layout ∧ t.path ≠ "" then [t.path] else []
      | none => [])

/-- Collapse every run of slashes to a single slash: the source's
`combined.replace(/\/+/g, '/')`. -/
def collapseSlashes : List Char → List Char
  | [] => []
  | [c] => [c]
  | a :: b :: rest =>
    if a = '/' ∧ b = '/' then collapseSlashes (b :: rest)
    else a :: collapseSlashes (b :: rest)

/-- Strip leading slashes: the source's `combined.replace(/^\/+/, '')`. -/
def dropLeadingSlashes (l : List Char) : List Char :=
  l.dropWhile (fun c => c = '/')

/-- Embeds `calculateFullPath` (src/extension.ts:406-419). -/
def calculateFullPath (toks : List RouteToken) (i : Nat) : String :=
  let parts := collectParts toks (i + 1) i
  let combined := collapseSlashes (String.intercalate slashStr parts).data
  String.mk ('/' :: dropLeadingSlashes combined)

/-- Number of the line holding character `index`: newlines in `text.substring(0,
index)` (src/extension.ts:161-164). -/
def getLineFromIndex (text : List Char) (index : Nat) : Nat :=
  ((text.take index).filter (fun c => c = Char.ofNat 10)).length

/-- Largest newline position strictly before `index`, the source's
`text.lastIndexOf('\n', index - 1)` with `none` for -1.  (For `index = 0` with a
leading newline JavaScript clamps the search to position 0; no token can start
on a newline character, so that corner is unreachable from `parseRoutesFile`.) -/
def lastNewlineBefore (text : List Char) (index : Nat) : Option Nat :=
  ((List.range index).filter (fun p => text.get? p = some (Char.ofNat 10))).getLast?

/-- Embeds `getColumnFromIndex` (src/extension.ts:167-170). -/
def getColumnFromIndex (text : List Char) (index : Nat) : Nat :=
  match lastNewlineBefore text index with
  | some p => index - p - 1
  | none => index

/-- Embeds the `RouteInfo` record (src/extension.ts:14-20); `range` is the tuple
`(startLine, startCol, endLine, endCol)` of the `vscode.Range` built at
src/extension.ts:434. -/
structure RouteInfo where
  type : RouteKind
  path : String
  fullPath : String
  line : Nat
  range : Nat × Nat × Nat × Nat
deriving DecidableEq

/-- The record pushed by `traverse` for one non-prefix node
(src/extension.ts:428-436), including the unreachable `|| '/'` fallback of
line 423 for an empty fullPath string. -/
def mkRecord (text : List Char) (toks : List RouteToken) (i : Nat) (t : RouteToken) : RouteInfo :=
  let fp := calculateFullPath toks i
  let fullPath := if fp = "" then "/" else fp
  let line := getLineFromIndex text t.startIndex
  let col := getColumnFromIndex text t.startIndex
  { type := t.type, path := t.path, fullPath := fullPath, line := line,
    range := (line, col, line, col + (kindName t.type).length) }

/-- Embeds `parseRoutesFile` (src/extension.ts:343-449): parse the tokens, build
the forest, and emit one record per non-prefix node in pre-order. -/
def parseRoutesFile (text : String) : List RouteInfo :=
  let cs := text.data
  let toks := parseRouteTokens cs
  (routeOrder toks).filterMap (fun i =>
    match toks.get? i with
    | some t => if t.type = RouteKind.pfx then none else some (mkRecord cs toks i t)
    | none => none)

/-- The source span of a token rendered back as a string (start to end offset,
both inclusive). -/
def sliceOfToken (text : List Char) (t : RouteToken) : String :=
  String.mk ((text.drop t.startIndex).take (t.endIndex + 1 - t.startIndex))

/-- True when the list holds two consecutive slash characters. -/
def hasDoubleSlash : List Char → Bool
  | a :: b :: rest =>
    if a = '/' ∧ b = '/' then true else hasDoubleSlash (b :: rest)
  | _ => false

/-- Ancestor chain of node `i` in root-to-node order (indices), following
`parentIndex`; fuel `i + 1` suffices since parents have smaller indices. -/
def chainTo (toks : List RouteToken) : Nat → Nat → List Nat
  | 0, _ => []
  | fuel + 1, i =>
    (match parentIndex toks i with
      | some j => chainTo toks fuel j
      | none => []) ++ [i]

/-- Declared segment of node `j` for the spec's path formula: every node whose
kind is not Layout contributes its path string, even when that string is
empty. -/
def segAll (toks : List RouteToken) (j : Nat) : Option String :=
  match toks.get? j with
  | some t => if t.type = RouteKind.layout then none else some t.path
  | none => none

/-- Join with slashes, collapse repeated slashes, strip leading slashes, and
prepend a single slash: the normalization shared by the source and the spec. -/
def normalizeJoin (parts : List String) : String :=
  String.mk ('/' :: dropLeadingSlashes (collapseSlashes (String.intercalate slashStr parts).data))

/-- The spec's fullPath formula taken literally: collect the declared segment of
every non-Layout ancestor from root to node inclusive (including empty
segments), then normalize. -/
def specFullPathLiteral (toks : List RouteToken) (i : Nat) : String :=
  normalizeJoin ((chainTo toks (i + 1) i).filterMap (segAll toks))

/-- The fullPath formula amended to drop empty segments before joining. -/
def specFullPathNonempty (toks : List RouteToken) (i : Nat) : String :=
  normalizeJoin (((chainTo toks (i + 1) i).filterMap (segAll toks)).filter (fun s => s ≠ ""))

/-- The route list's fullPaths as the spec's literal formula computes them, over
the same nodes in the same order as `parseRoutesFile`. -/
def specFullPathsLiteral (text : String) : List String :=
  let toks := parseRouteTokens text.data
  (routeOrder toks).filterMap (fun i =>
    match toks.get? i with
    | some t => if t.type = RouteKind.pfx then none else some (specFullPathLiteral toks i)
    | none => none)

/-- The route list's fullPaths under the amended (nonempty-segment) formula. -/
def specFullPathsNonempty (text : String) : List String :=
  let toks := parseRouteTokens text.data
  (routeOrder toks).filterMap (fun i =>
    match toks.get? i with
    | some t => if t.type = RouteKind.pfx then none else some (specFullPathNonempty toks i)
    | none => none)

/-- Claim C1's input text:
`prefix('dashboard', [ index('./d/home.tsx'), route('settings', './d/settings.tsx') ])`. -/
def txPrefixDashboard : String :=
  "prefix(" ++ aposS ++ "dashboard" ++ aposS ++ ", [ index(" ++ aposS ++ "./d/home.tsx" ++
    aposS ++ "), route(" ++ aposS ++ "settings" ++ aposS ++ ", " ++ aposS ++
    "./d/settings.tsx" ++ aposS ++ ") ])"

/-- Claim C3's counterexample text: `prefix('a', [ index('./h.tsx') ])`. -/
def txPrefixIndex : String :=
  "prefix(" ++ aposS ++ "a" ++ aposS ++ ", [ index(" ++ aposS ++ "./h.tsx" ++ aposS ++ ") ])"

/-- Claim C3's layout example: `layout('./layout.tsx', [ route('x', './x.tsx') ])`. -/
def txLayoutChild : String :=
  "layout(" ++ aposS ++ "./layout.tsx" ++ aposS ++ ", [ route(" ++ aposS ++ "x" ++ aposS ++
    ", " ++ aposS ++ "./x.tsx" ++ aposS ++ ") ])"

/-- A call with a parenthesis inside a quoted argument: `f('a(b', x)`. -/
def txQuotedParen : String := "f(" ++ aposS ++ "a(b" ++ aposS ++ ", x)"

/-- A truncated call whose string argument never closes: `f('abc`. -/
def txTruncated : String := "f(" ++ aposS ++ "abc"

/-- First call of claim C4's consequence text: `route('a(b', './f.tsx')`. -/
def txCall1 : String :=
  "route(" ++ aposS ++ "a(b" ++ aposS ++ ", " ++ aposS ++ "./f.tsx" ++ aposS ++ ")"

/-- Second call of claim C4's consequence text: `route('c', './g.tsx')`. -/
def txCall2 : String :=
  "route(" ++ aposS ++ "c" ++ aposS ++ ", " ++ aposS ++ "./g.tsx" ++ aposS ++ ")"

/-- Claim C4's consequence text: the quoted-paren call followed by a well-formed
call. -/
def txTwoCalls : String := txCall1 ++ " " ++ txCall2

/-- Claim C5's counterexample text, a spread directly in argument position:
`route('a', './f.tsx', ...prefix('p', [index('./h.tsx')]))`. -/
def txSpreadArg : String :=
  "route(" ++ aposS ++ "a" ++ aposS ++ ", " ++ aposS ++ "./f.tsx" ++ aposS ++
    ", ...prefix(" ++ aposS ++ "p" ++ aposS ++ ", [index(" ++ aposS ++ "./h.tsx" ++ aposS ++ ")]))"

/-- Claim C5's array-element text, a spread inside the enclosing call's own
children array: `route('a', './f.tsx', [ ...prefix('x', [ index('./h.tsx') ]) ])`. -/
def txSpreadElem : String :=
  "route(" ++ aposS ++ "a" ++ aposS ++ ", " ++ aposS ++ "./f.tsx" ++ aposS ++
    ", [ ...prefix(" ++ aposS ++ "x" ++ aposS ++ ", [ index(" ++ aposS ++ "./h.tsx" ++
    aposS ++ ") ]) ])"

/-- Claim C6's input text: `index('./home.tsx')`. -/
def txIndexOnly : String := "index(" ++ aposS ++ "./home.tsx" ++ aposS ++ ")"

/-- Claim C8's unmatched-parenthesis text: `route('a', './f.tsx' index('./h.tsx')`
(the route call never closes because the nested `index(` raises the depth). -/
def txUnmatched : String :=
  "route(" ++ aposS ++ "a" ++ aposS ++ ", " ++ aposS ++ "./f.tsx" ++ aposS ++
    " index(" ++ aposS ++ "./h.tsx" ++ aposS ++ ")"

/-- Claim C8's missing-first-argument text: `route(foo) index('./h.tsx')`. -/
def txMissingArg : String :=
  "route(foo) index(" ++ aposS ++ "./h.tsx" ++ aposS ++ ")"

/-- Claim C8's unterminated-string text: `route('a index('./h.tsx')`. -/
def txUnterminated : String :=
  "route(" ++ aposS ++ "a index(" ++ aposS ++ "./h.tsx" ++ aposS ++ ")"

/-- A layout call with an empty children array: `layout('./l.tsx', [])`. -/
def txLayoutEmpty : String :=
  "layout(" ++ aposS ++ "./l.tsx" ++ aposS ++ ", [])"

/-- The single token parsed from `txLayoutEmpty`. -/
def tokLayoutEmpty : RouteToken :=
  { type := RouteKind.layout, path := "", startIndex := 0, endIndex := 20,
    hasChildren := true, childrenStartIndex := some 18 }

theorem collapseSlashes_head? (l : List Char) : (collapseSlashes l).head? = l.head? := by
  induction l with
  | nil => rfl
  | cons a t ih =>
    cases t with
    | nil => rfl
    | cons b rest =>
      rw [collapseSlashes]
      split
      · rename_i h
        rw [ih]
        simp [h.1, h.2]
      · rfl

theorem hasDoubleSlash_collapseSlashes (l : List Char) :
    hasDoubleSlash (collapseSlashes l) = false := by
  induction l with
  | nil => rfl
  | cons a t ih =>
    cases t with
    | nil => rfl
    | cons b rest =>
      rw [collapseSlashes]
      split
      · exact ih
      · rename_i h
        have hh := collapseSlashes_head? (b :: rest)
        cases hc : collapseSlashes (b :: rest) with
        | nil => rfl
        | cons x xs =>
          rw [hc] at ih hh
          simp only [List.head?] at hh
          rw [hasDoubleSlash]
          split
          · rename_i h2
            rw [Option.some_inj] at hh
            rw [hh] at h2
            exact absurd h2 h
          · exact ih

theorem hasDoubleSlash_tail {a : Char} {l : List Char}
    (h : hasDoubleSlash (a :: l) = false) : hasDoubleSlash l = false := by
  cases l with
  | nil => rfl
  | cons b rest =>
    rw [hasDoubleSlash] at h
    split at h
    · exact absurd h (by simp)
    · exact h

theorem hasDoubleSlash_dropWhile (p : Char → Bool) (l : List Char)
    (h : hasDoubleSlash l = false) : hasDoubleSlash (l.dropWhile p) = false := by
  induction l with
  | nil => rfl
  | cons a t ih =>
    rw [List.dropWhile_cons]
    split
    · exact ih (hasDoubleSlash_tail h)
    · exact h

theorem dropWhile_head?_false (p : Char → Bool) (l : List Char) (x : Char)
    (h : (l.dropWhile p).head? = some x) : p x = false := by
  induction l with
  | nil => simp [List.dropWhile] at h
  | cons a t ih =>
    rw [List.dropWhile_cons] at h
    split at h
    · exact ih h
    · rename_i hp
      simp only [List.head?, Option.some_inj] at h
      rw [← h]
      simpa using hp

theorem calculateFullPath_normalized (toks : List RouteToken) (i : Nat) :
    (calculateFullPath toks i).data.head? = some '/' ∧
      hasDoubleSlash (calculateFullPath toks i).data = false := by
  unfold calculateFullPath
  refine ⟨rfl, ?_⟩
  show hasDoubleSlash ('/' :: dropLeadingSlashes (collapseSlashes
    (String.intercalate slashStr (collectParts toks (i + 1) i)).data)) = false
  set m := (String.intercalate slashStr (collectParts toks (i + 1) i)).data with hm
  have h1 : hasDoubleSlash (collapseSlashes m) = false := hasDoubleSlash_collapseSlashes m
  have h2 : hasDoubleSlash (dropLeadingSlashes (collapseSlashes m)) = false :=
    hasDoubleSlash_dropWhile _ _ h1
  cases hc : dropLeadingSlashes (collapseSlashes m) with
  | nil => rfl
  | cons x xs =>
    rw [hasDoubleSlash]
    split
    · rename_i hx
      have hpx : (fun c => decide (c = '/')) x = false := by
        apply dropWhile_head?_false _ (collapseSlashes m) x
        rw [show (collapseSlashes m).dropWhile (fun c => decide (c = '/')) =
          dropLeadingSlashes (collapseSlashes m) from rfl, hc]
        rfl
      simp [hx.2] at hpx
    · rw [← hc]
      exact h2

theorem mkRecord_fullPath_normalized (text : List Char) (toks : List RouteToken)
    (i : Nat) (t : RouteToken) :
    (mkRecord text toks i t).fullPath.data.head? = some '/' ∧
      hasDoubleSlash (mkRecord text toks i t).fullPath.data = false := by
  unfold mkRecord
  simp only
  split
  · exact ⟨rfl, rfl⟩
  · exact calculateFullPath_normalized toks i

/-- The parent index without the redundant closest-parent check: largest
qualifying `j < m`. -/
def maxQualBelow (toks : List RouteToken) (i : Nat) : Nat → Option Nat
  | 0 => none
  | m + 1 => if qualifiesParent toks i m then some m else maxQualBelow toks i m

theorem parentScanAux_eq_maxQualBelow (toks : List RouteToken) (i : Nat) :
    ∀ m, (∀ k, m ≤ k → k < i → qualifiesParent toks i k = false) →
      parentScanAux toks i m = maxQualBelow toks i m := by
  intro m
  induction m with
  | zero => intro _; rfl
  | succ m ih =>
    intro h
    rw [parentScanAux, maxQualBelow]
    by_cases hq : qualifiesParent toks i m = true
    · have hclosest : isClosestParent toks i m = true := by
        rw [isClosestParent, List.all_eq_true]
        intro k hk
        rw [List.mem_range'_1] at hk
        have hk2 : k < i := by omega
        simp [h k (by omega) hk2]
      rw [hq, hclosest]
      simp
    · rw [Bool.not_eq_true] at hq
      rw [hq]
      simp only [Bool.false_and, Bool.false_eq_true, if_false]
      exact ih (fun k hk1 hk2 => by
        rcases Nat.eq_or_lt_of_le hk1 with h1 | h1
        · rw [← h1]; exact hq
        · exact h k h1 hk2)

theorem maxQualBelow_eq_some (toks : List RouteToken) (i : Nat) :
    ∀ m j, maxQualBelow toks i m = some j ↔
      (j < m ∧ qualifiesParent toks i j = true ∧
        ∀ k, j < k → k < m → qualifiesParent toks i k = false) := by
  intro m
  induction m with
  | zero => intro j; simp [maxQualBelow]
  | succ m ih =>
    intro j
    rw [maxQualBelow]
    by_cases hq : qualifiesParent toks i m = true
    · rw [if_pos hq]
      constructor
      · intro h
        rw [Option.some_inj] at h
        subst h
        exact ⟨Nat.lt_succ_self m, hq, fun k hk1 hk2 => by omega⟩
      · rintro ⟨hjm, hqj, hbetween⟩
        rcases Nat.lt_succ_iff_lt_or_eq.mp hjm with h1 | h1
        · exact absurd hq (by simp [hbetween m h1 (Nat.lt_succ_self m)])
        · rw [h1]
    · rw [if_neg hq]
      rw [ih j]
      have hqf : qualifiesParent toks i m = false := by
        simpa using hq
      constructor
      · rintro ⟨hjm, hqj, hbetween⟩
        refine ⟨by omega, hqj, fun k hk1 hk2 => ?_⟩
        rcases Nat.lt_succ_iff_lt_or_eq.mp hk2 with h1 | h1
        · exact hbetween k hk1 h1
        · rw [h1]; exact hqf
      · rintro ⟨hjm, hqj, hbetween⟩
        have hjm2 : j < m := by
          rcases Nat.lt_succ_iff_lt_or_eq.mp hjm with h1 | h1
          · exact h1
          · rw [h1] at hqj; exact absurd hqj (by simp [hqf])
        exact ⟨hjm2, hqj, fun k hk1 hk2 => hbetween k hk1 (by omega)⟩

theorem maxQualBelow_eq_none (toks : List RouteToken) (i : Nat) :
    ∀ m, maxQualBelow toks i m = none ↔
      ∀ j, j < m → qualifiesParent toks i j = false := by
  intro m
  induction m with
  | zero => simp [maxQualBelow]
  | succ m ih =>
    rw [maxQualBelow]
    by_cases hq : qualifiesParent toks i m = true
    · rw [if_pos hq]
      simp only [reduceCtorEq, false_iff, not_forall]
      exact ⟨m, Nat.lt_succ_self m, by simp [hq]⟩
    · rw [if_neg hq, ih]
      have hqf : qualifiesParent toks i m = false := by
        simpa using hq
      constructor
      · intro h j hj
        rcases Nat.lt_succ_iff_lt_or_eq.mp hj with h1 | h1
        · exact h j h1
        · rw [h1]; exact hqf
      · intro h j hj
        exact h j (by omega)

theorem parentIndex_eq_maxQualBelow (toks : List RouteToken) (i : Nat) :
    parentIndex toks i = maxQualBelow toks i i :=
  parentScanAux_eq_maxQualBelow toks i i (fun k hk1 hk2 => absurd hk2 (by omega))

theorem fmpGo_mem (l : List Char) : ∀ (q : Option Char) (esc : Bool) (depth i j : Nat),
    fmpGo q esc depth l i = some j → i ≤ j ∧ l.get? (j - i) = some ')' := by
  induction l with
  | nil =>
    intro q esc depth i j h
    simp [fmpGo] at h
  | cons c rest ih =>
    intro q esc depth i j h
    have step : ∀ (q2 : Option Char) (e2 : Bool) (d2 : Nat),
        fmpGo q2 e2 d2 rest (i + 1) = some j →
        i ≤ j ∧ (c :: rest).get? (j - i) = some ')' := by
      intro q2 e2 d2 hrec
      obtain ⟨hle, hget⟩ := ih q2 e2 d2 (i + 1) j hrec
      refine ⟨by omega, ?_⟩
      rw [show j - i = (j - (i + 1)) + 1 by omega]
      simpa using hget
    rw [fmpGo.eq_def] at h
    cases q with
    | some quote =>
      simp only at h
      split at h
      · exact step _ _ _ h
      · split at h
        · exact step _ _ _ h
        · split at h
          · exact step _ _ _ h
          · exact step _ _ _ h
    | none =>
      simp only at h
      split at h
      · exact step _ _ _ h
      · split at h
        · split at h
          · rw [Option.some_inj] at h
            subst h
            rename_i hnp hc hd
            refine ⟨le_refl _, ?_⟩
            rw [Nat.sub_self]
            simpa using hc
          · exact step _ _ _ h
        · split at h
          · exact step _ _ _ h
          · exact step _ _ _ h

theorem findMatchingParen_close (text : List Char) (op j : Nat)
    (h : findMatchingParen text op = some j) : op < j ∧ text.get? j = some ')' := by
  unfold findMatchingParen at h
  obtain ⟨hle, hget⟩ := fmpGo_mem (text.drop (op + 1)) none false 1 (op + 1) j h
  refine ⟨by omega, ?_⟩
  rw [List.get?_eq_getElem?] at hget ⊢
  rw [List.getElem?_drop] at hget
  rwa [show op + 1 + (j - (op + 1)) = j by omega] at hget

theorem collectParts_eq (toks : List RouteToken) :
    ∀ fuel i, collectParts toks fuel i =
      ((chainTo toks fuel i).filterMap (segAll toks)).filter (fun s => s ≠ "") := by
  intro fuel
  induction fuel with
  | zero => intro i; rfl
  | succ fuel ih =>
    intro i
    rw [collectParts, chainTo, List.filterMap_append, List.filter_append]
    congr 1
    · cases hp : parentIndex toks i with
      | some j => exact ih j
      | none => rfl
    · cases ht : toks.get? i with
      | none =>
        have hs : segAll toks i = none := by rw [segAll, ht]
        simp [hs]
      | some t =>
        simp only [segAll, ht, List.filterMap_cons, List.filterMap_nil]
        by_cases hl : t.type = RouteKind.layout
        · simp [hl]
        · by_cases hp : t.path = ""
          · simp [hl, hp]
          · simp [hl, hp]

theorem calculateFullPath_eq_specNonempty (toks : List RouteToken) (i : Nat) :
    calculateFullPath toks i = specFullPathNonempty toks i := by
  show String.mk ('/' :: dropLeadingSlashes (collapseSlashes
    (String.intercalate slashStr (collectParts toks (i + 1) i)).data)) = specFullPathNonempty toks i
  rw [collectParts_eq]
  rfl

/-- The fullPath field of a record, stated as the equation the source computes
it by. -/
theorem mkRecord_fullPath (text : List Char) (toks : List RouteToken) (i : Nat)
    (t : RouteToken) :
    (mkRecord text toks i t).fullPath =
      (if calculateFullPath toks i = "" then "/" else calculateFullPath toks i) := rfl

theorem skipSpacesCommasAux_ge : ∀ (l : List Char) (i : Nat), i ≤ skipSpacesCommasAux l i := by
  intro l
  induction l with
  | nil => intro i; exact le_refl i
  | cons c rest ih =>
    intro i
    rw [skipSpacesCommasAux]
    split
    · exact le_trans (by omega) (ih (i + 1))
    · exact le_refl i

theorem skipSpacesCommas_ge (text : List Char) (i : Nat) : i ≤ skipSpacesCommas text i :=
  skipSpacesCommasAux_ge (text.drop i) i

theorem esaLoop_endIndex (q : Char) : ∀ (n : Nat) (l : List Char), l.length ≤ n →
    ∀ (i : Nat) (acc v : List Char) (e : Nat),
      esaLoop q l i acc = some (v, e) → i + 1 ≤ e := by
  intro n
  induction n with
  | zero =>
    intro l hl i acc v e h
    have hnil : l = [] := List.length_eq_zero.mp (by omega)
    subst hnil
    simp [esaLoop] at h
  | succ n ihn =>
    intro l hl i acc v e h
    cases l with
    | nil => simp [esaLoop] at h
    | cons c rest =>
      cases rest with
      | nil =>
        rw [esaLoop] at h
        split at h
        · rw [Option.some_inj, Prod.mk.injEq] at h
          omega
        · split at h
          · simp at h
          · simp [esaLoop] at h
      | cons d rest2 =>
        rw [esaLoop] at h
        split at h
        · rw [Option.some_inj, Prod.mk.injEq] at h
          omega
        · split at h
          · have hlen : rest2.length ≤ n := by simp at hl; omega
            have := ihn rest2 hlen (i + 2) (acc ++ [d]) v e h
            omega
          · have hlen : (d :: rest2).length ≤ n := by simp at hl ⊢; omega
            have := ihn (d :: rest2) hlen (i + 1) (acc ++ [c]) v e h
            omega

theorem extractStringArg_endIndex (text : List Char) (s : Nat) (r : ExtractedArg)
    (h : extractStringArg text s = some r) : s + 1 ≤ r.endIndex := by
  have hskip : s ≤ skipSpacesCommas text s := skipSpacesCommas_ge text s
  simp only [extractStringArg] at h
  split at h
  · simp at h
  · split at h
    · split at h
      · rename_i v e hl
        rw [Option.some_inj] at h
        subst h
        show s + 1 ≤ e
        have he := esaLoop_endIndex _ (text.drop (skipSpacesCommas text s + 1)).length
          (text.drop (skipSpacesCommas text s + 1)) (le_refl _)
          (skipSpacesCommas text s + 1) [] v e hl
        omega
      · simp at h
    · simp at h

theorem indexOfFromAux_le (c : Char) : ∀ (l : List Char) (i p : Nat),
    indexOfFromAux c l i = some p → i ≤ p := by
  intro l
  induction l with
  | nil => intro i p h; simp [indexOfFromAux] at h
  | cons x rest ih =>
    intro i p h
    rw [indexOfFromAux] at h
    split at h
    · rw [Option.some_inj] at h; omega
    · have := ih (i + 1) p h; omega

theorem indexOfFrom_le (text : List Char) (c : Char) (i p : Nat)
    (h : indexOfFrom text c i = some p) : i ≤ p :=
  indexOfFromAux_le c (text.drop i) i p h

theorem fcaAux_bounds (cp : Nat) : ∀ (n : Nat) (l : List Char), l.length ≤ n →
    ∀ (i : Nat) (fc : Bool) (k : Nat), fcaAux cp l i fc = some k → i ≤ k ∧ k < cp := by
  intro n
  induction n with
  | zero =>
    intro l hl i fc k h
    have hnil : l = [] := List.length_eq_zero.mp (by omega)
    subst hnil
    simp [fcaAux] at h
  | succ n ihn =>
    intro l hl i fc k h
    have hshort : ∀ (c : Char) (rest : List Char),
        (∀ (h1 h2 : Char) (t : List Char), rest = h1 :: h2 :: t → False) →
        l = c :: rest → rest.length ≤ n →
        i ≤ k ∧ k < cp := by
      intro c rest hcond hle hlen
      rw [hle] at h
      rw [fcaAux.eq_3 _ _ _ _ _ hcond] at h
      split at h
      · rename_i hlt
        split at h
        · have := ihn rest hlen (i + 1) true k h
          omega
        · split at h
          · rw [Option.some_inj] at h
            omega
          · split at h
            · simp at h
            · have := ihn rest hlen (i + 1) fc k h
              omega
      · simp at h
    cases l with
    | nil => simp [fcaAux] at h
    | cons c rest =>
      cases rest with
      | nil =>
        exact hshort c [] (by intro a b t hh; cases hh) rfl (by simp)
      | cons d rest2 =>
        cases rest2 with
        | nil =>
          exact hshort c [d] (by intro a b t hh; cases hh) rfl (by simp at hl ⊢; omega)
        | cons d2 rest3 =>
          rw [fcaAux] at h
          split at h
          · rename_i hlt
            split at h
            · have hlen : (d :: d2 :: rest3).length ≤ n := by simp at hl ⊢; omega
              have := ihn _ hlen (i + 1) true k h
              omega
            · split at h
              · rw [Option.some_inj] at h
                omega
              · split at h
                · have hlen : rest3.length ≤ n := by simp at hl; omega
                  have := ihn rest3 hlen (i + 3) fc k h
                  omega
                · have hlen : (d :: d2 :: rest3).length ≤ n := by simp at hl ⊢; omega
                  have := ihn _ hlen (i + 1) fc k h
                  omega
          · simp at h

theorem findChildrenArray_bounds (text : List Char) (a cpi k : Nat)
    (h : findChildrenArray text a cpi = some k) : a ≤ k ∧ k < cpi :=
  fcaAux_bounds cpi (text.drop a).length (text.drop a) (le_refl _) a false k h

theorem mem_insertByStart (t x : RouteToken) (l : List RouteToken) :
    x ∈ insertByStart t l ↔ x = t ∨ x ∈ l := by
  induction l with
  | nil => simp [insertByStart]
  | cons a rest ih =>
    rw [insertByStart]
    split
    · simp only [List.mem_cons, ih]
      tauto
    · simp only [List.mem_cons]

theorem mem_sortByStart (x : RouteToken) (l : List RouteToken) :
    x ∈ sortByStart l ↔ x ∈ l := by
  have key : ∀ (l2 acc : List RouteToken),
      x ∈ l2.foldl (fun acc t => insertByStart t acc) acc ↔ x ∈ acc ∨ x ∈ l2 := by
    intro l2
    induction l2 with
    | nil => intro acc; simp
    | cons a rest ih =>
      intro acc
      rw [List.foldl_cons, ih, mem_insertByStart]
      simp only [List.mem_cons]
      tauto
  rw [sortByStart, key]
  simp

/-- Two invocations of the parse on the same text snapshot, modelling the
idempotence scenario of the spec: the source constructs its scanner state (the
regex objects and all intermediate arrays) afresh inside each call, so each
invocation is the same pure function of the text. -/
def runParseTwice (text : String) :
    (List RouteToken × List RouteInfo) × (List RouteToken × List RouteInfo) :=
  ((parseRouteTokens text.data, parseRoutesFile text),
   (parseRouteTokens text.data, parseRoutesFile text))

/-- A children-array scan range whose dots precede the qualifying bracket:
`, ...k, [x]`. -/
def txSpreadDots : String := ", ...k, [x]"

/-- Claim C1: parsing `prefix('dashboard', [ index('./d/home.tsx'),
route('settings', './d/settings.tsx') ])` produces exactly two RouteRecords, an
index record with fullPath `/dashboard` and a route record with fullPath
`/dashboard/settings`, and no record for the prefix construct itself. -/
theorem c1_prefix_two_records :
    (parseRoutesFile txPrefixDashboard).map (fun r => (r.type, r.fullPath)) =
      [(RouteKind.index, "/dashboard"), (RouteKind.route, "/dashboard/settings")] := by
  decide

/-- Claim C2: for every token `i` of the sorted stream, the tree builder makes
token `i` a child of the nearest preceding token `j` that has a children array
and whose children-array-to-call-end span strictly contains token `i`'s span
(no qualifying candidate lies between `j` and `i`), and makes token `i` a root
exactly when no preceding token qualifies. -/
theorem c2_parent_is_nearest (toks : List RouteToken) (i : Nat) :
    (∀ j, parentIndex toks i = some j ↔
      (j < i ∧ qualifiesParent toks i j = true ∧
        ∀ k, j < k → k < i → qualifiesParent toks i k = false)) ∧
    (parentIndex toks i = none ↔ ∀ j, j < i → qualifiesParent toks i j = false) := by
  rw [parentIndex_eq_maxQualBelow]
  exact ⟨fun j => maxQualBelow_eq_some toks i i j, maxQualBelow_eq_none toks i i⟩

theorem c2_witness :
    parentIndex (parseRouteTokens txPrefixDashboard.data) 2 = some 0 := by
  apply ((c2_parent_is_nearest (parseRouteTokens txPrefixDashboard.data) 2).1 0).mpr
  refine ⟨by decide, by decide, ?_⟩
  intro k h1 h2
  have hk : k = 1 := by omega
  subst hk
  decide

/-- Claim C3, counterexample: for `prefix('a', [ index('./h.tsx') ])` the single
emitted record (the index node) has fullPath `/a`, while the claim's formula
(collect the declared segment of every non-Layout ancestor, here `a` and the
index node's empty segment, then join, collapse, strip, and prepend) yields
`/a/`; the source skips empty segments, the claim's procedure keeps them. -/
theorem c3_counterexample :
    (parseRoutesFile txPrefixIndex).map (fun r => r.fullPath) = ["/a"] ∧
    specFullPathsLiteral txPrefixIndex = ["/a/"] ∧
    (parseRoutesFile txPrefixIndex).map (fun r => r.fullPath) ≠
      specFullPathsLiteral txPrefixIndex := by
  refine ⟨by decide, by decide, by decide⟩

/-- Claim C3, amended: for every tree node, fullPath equals the result of
collecting the declared segment of every non-Layout ancestor that declares a
nonempty segment, root-to-node, joined with slashes, repeated slashes
collapsed, leading slashes stripped, and a single slash prepended; in
particular for `layout('./layout.tsx', [ route('x', './x.tsx') ])` the child's
fullPath is `/x` (the layout contributes no segment). -/
theorem c3_amended_nonempty_segments :
    (∀ text : String,
      (parseRoutesFile text).map (fun r => r.fullPath) = specFullPathsNonempty text) ∧
    (parseRoutesFile txLayoutChild).map (fun r => (r.type, r.fullPath)) =
      [(RouteKind.layout, "/"), (RouteKind.route, "/x")] := by
  constructor
  · intro text
    unfold parseRoutesFile specFullPathsNonempty
    rw [List.map_filterMap]
    congr 1
    funext i
    cases ht : (parseRouteTokens text.data).get? i with
    | none => rfl
    | some t =>
      show Option.map (fun r => r.fullPath)
          (if t.type = RouteKind.pfx then none
            else some (mkRecord text.data (parseRouteTokens text.data) i t)) =
        (if t.type = RouteKind.pfx then none
          else some (specFullPathNonempty (parseRouteTokens text.data) i))
      by_cases hp : t.type = RouteKind.pfx
      · rw [if_pos hp, if_pos hp]
        rfl
      · rw [if_neg hp, if_neg hp]
        rw [Option.map_some']
        rw [mkRecord_fullPath]
        have hne : calculateFullPath (parseRouteTokens text.data) i ≠ "" := by
          intro he
          have h1 := (calculateFullPath_normalized (parseRouteTokens text.data) i).1
          rw [he] at h1
          simp at h1
        rw [if_neg hne, calculateFullPath_eq_specNonempty]
  · decide

/-- Claim C4: the balanced-paren matcher only ever returns the index of a
closing parenthesis after the opening one; on `f('a(b', x)` it skips the quoted
run and matches the close at index 10, on the truncated `f('abc` it reports not
found, and in `route('a(b', './f.tsx') route('c', './g.tsx')` both constructs
get exactly their own call text as their span. -/
theorem c4_paren_matcher :
    (∀ (text : List Char) (op j : Nat),
      findMatchingParen text op = some j → op < j ∧ text.get? j = some ')') ∧
    findMatchingParen txQuotedParen.data 1 = some 10 ∧
    findMatchingParen txTruncated.data 1 = none ∧
    (parseRouteTokens txTwoCalls.data).map
        (fun t => (t.type, t.path, sliceOfToken txTwoCalls.data t)) =
      [(RouteKind.route, "a(b", txCall1), (RouteKind.route, "c", txCall2)] :=
  ⟨findMatchingParen_close, by decide, by decide, by decide⟩

theorem c4_witness : 1 < 10 ∧ txQuotedParen.data.get? 10 = some ')' :=
  c4_paren_matcher.1 txQuotedParen.data 1 10 (by decide)

/-- Claim C5, counterexample: in
`route('a', './f.tsx', ...prefix('p', [index('./h.tsx')]))` the spread
expression sits directly in the route call's argument range, and the
children-array locator returns index 37 for the route call: the very `[` that
opens the spread target's own children array (the prefix token's
childrenStartIndex is the same index 37), so the spread target's bracket is
taken as the enclosing call's children-array start. -/
theorem c5_counterexample :
    (parseRouteTokens txSpreadArg.data).map (fun t => (t.type, t.childrenStartIndex)) =
      [(RouteKind.route, some 37), (RouteKind.pfx, some 37), (RouteKind.index, none)] ∧
    txSpreadArg.data.get? 37 = some '[' := by
  refine ⟨by decide, by decide⟩

/-- Claim C5, amended: the locator skips a `...` run as a three-character unit
and keeps scanning (in `, ...k, [x]` it passes the dots and returns the `[` at
index 8); when the spread expression occurs as an element of the enclosing
call's own children array, as in
`route('a', './f.tsx', [ ...prefix('x', [ index('./h.tsx') ]) ])`, the
enclosing array's `[` (index 22) precedes the spread, so the `[` belonging to
the spread target (index 39) is not returned as the enclosing call's
children-array start; a spread directly in argument position can still expose
the target's bracket. -/
theorem c5_amended_spread_skip :
    findChildrenArray txSpreadDots.data 0 11 = some 8 ∧
    txSpreadDots.data.get? 8 = some '[' ∧
    (parseRouteTokens txSpreadElem.data).map (fun t => (t.type, t.childrenStartIndex)) =
      [(RouteKind.route, some 22), (RouteKind.pfx, some 39), (RouteKind.index, none)] ∧
    txSpreadElem.data.get? 22 = some '[' ∧
    txSpreadElem.data.get? 39 = some '[' := by
  refine ⟨by decide, by decide, by decide, by decide, by decide⟩

/-- Claim C6: for the input `index('./home.tsx')` alone, the parse yields
exactly one RouteRecord with fullPath `/`, and in general any node all of whose
non-Layout root-to-node ancestors declare an absent or empty segment resolves
to fullPath `/`. -/
theorem c6_empty_segments_give_root :
    ((parseRoutesFile txIndexOnly).map (fun r => (r.type, r.fullPath)) =
      [(RouteKind.index, "/")]) ∧
    (∀ (toks : List RouteToken) (i : Nat),
      (∀ j ∈ chainTo toks (i + 1) i,
        (toks.get? j).all (fun t => t.type = RouteKind.layout || t.path = "") = true) →
      calculateFullPath toks i = "/") := by
  constructor
  · decide
  · intro toks i h
    have hparts : collectParts toks (i + 1) i = [] := by
      rw [collectParts_eq, List.filter_eq_nil_iff]
      intro s hs
      rw [List.mem_filterMap] at hs
      obtain ⟨j, hj, hseg⟩ := hs
      have hcase := h j hj
      rw [segAll] at hseg
      cases ht : toks.get? j with
      | none => rw [ht] at hseg; simp at hseg
      | some t =>
        rw [ht] at hseg hcase
        simp only [Option.all_some, Bool.or_eq_true, decide_eq_true_eq] at hcase
        have hseg2 : (if t.type = RouteKind.layout then none else some t.path) = some s := hseg
        by_cases hl : t.type = RouteKind.layout
        · rw [if_pos hl] at hseg2
          simp at hseg2
        · rw [if_neg hl] at hseg2
          rw [Option.some_inj] at hseg2
          subst hseg2
          rcases hcase with h1 | h1
          · exact absurd h1 hl
          · simp [h1]
    show String.mk ('/' :: dropLeadingSlashes (collapseSlashes
      (String.intercalate slashStr (collectParts toks (i + 1) i)).data)) = "/"
    rw [hparts]
    rfl

theorem c6_witness :
    calculateFullPath (parseRouteTokens txIndexOnly.data) 0 = "/" :=
  c6_empty_segments_give_root.2 (parseRouteTokens txIndexOnly.data) 0 (by decide)

/-- Claim C7: every RouteRecord produced from any input text has a fullPath
that starts with a slash and contains no two consecutive slashes. -/
theorem c7_fullPath_normalized (text : String) (r : RouteInfo)
    (h : r ∈ parseRoutesFile text) :
    r.fullPath.data.head? = some '/' ∧ hasDoubleSlash r.fullPath.data = false := by
  unfold parseRoutesFile at h
  rw [List.mem_filterMap] at h
  obtain ⟨i, _, hf⟩ := h
  cases ht : (parseRouteTokens text.data).get? i with
  | none => rw [ht] at hf; simp at hf
  | some t =>
    rw [ht] at hf
    simp only at hf
    by_cases hp : t.type = RouteKind.pfx
    · rw [if_pos hp] at hf
      simp at hf
    · rw [if_neg hp] at hf
      rw [Option.some_inj] at hf
      subst hf
      exact mkRecord_fullPath_normalized text.data (parseRouteTokens text.data) i t

theorem c7_witness :
    ∃ r : RouteInfo, r ∈ parseRoutesFile txIndexOnly ∧
      (r.fullPath.data.head? = some '/' ∧ hasDoubleSlash r.fullPath.data = false) :=
  ⟨{ type := RouteKind.index, path := "", fullPath := "/", line := 0, range := (0, 0, 0, 5) },
    by decide,
    c7_fullPath_normalized txIndexOnly _ (by decide)⟩

/-- Claim C8: malformed occurrences are dropped locally while the rest of the
text still parses.  An unmatched parenthesis (`route('a', './f.tsx'
index('./h.tsx')`), a missing required first string argument (`route(foo)
index('./h.tsx')`), and an unterminated string (`route('a index('./h.tsx')`)
each drop only the malformed route occurrence; the later well-formed construct
is still parsed, and the outcome is a partial route list.  (Totality itself
holds by construction: every function of this embedding is total.) -/
theorem c8_malformed_dropped_locally :
    ((parseRouteTokens txUnmatched.data).map (fun t => t.type) = [RouteKind.index] ∧
      (parseRoutesFile txUnmatched).map (fun r => r.fullPath) = ["/"]) ∧
    ((parseRouteTokens txMissingArg.data).map (fun t => t.type) = [RouteKind.index] ∧
      (parseRoutesFile txMissingArg).map (fun r => r.fullPath) = ["/"]) ∧
    ((parseRouteTokens txUnterminated.data).map (fun t => t.type) = [RouteKind.index] ∧
      (parseRoutesFile txUnterminated).map (fun r => r.fullPath) = ["/"]) := by
  refine ⟨⟨by decide, by decide⟩, ⟨by decide, by decide⟩, ⟨by decide, by decide⟩⟩

/-- Claim C9: the parse is deterministic.  The core is a pure function of the
text snapshot — the source builds its regex objects and every intermediate
array afresh inside each invocation, so two invocations on the same text yield
identical token streams and identical route lists. -/
theorem c9_parse_deterministic (text : String) :
    (runParseTwice text).1 = (runParseTwice text).2 := rfl

theorem afterFile_ge (text : List Char) (ap : Nat) :
    ap ≤ (match extractStringArg text ap with
      | some fileArg => fileArg.endIndex
      | none => ap) := by
  cases hfa : extractStringArg text ap with
  | some fa =>
    show ap ≤ fa.endIndex
    have := extractStringArg_endIndex text ap fa hfa
    omega
  | none =>
    show ap ≤ ap
    exact le_refl ap

theorem processOccurrence_children (text : List Char) (kind : RouteKind) (p : Nat)
    (tok : RouteToken) (hproc : processOccurrence text kind p = some tok)
    (hch : tok.hasChildren = true) :
    ∃ cs, tok.childrenStartIndex = some cs ∧
      tok.startIndex < cs ∧ cs < tok.endIndex := by
  unfold processOccurrence at hproc
  split at hproc
  · simp at hproc
  · rename_i op hop
    have hpop : p ≤ op := indexOfFrom_le text '(' p op hop
    split at hproc
    · simp at hproc
    · rename_i cp hcp
      split at hproc
      · simp at hproc
      · rename_i pr path afterPath hpa
        cases kind with
        | index =>
          simp only [Option.some.injEq] at hproc
          subst hproc
          simp at hch
        | pfx =>
          simp only [Option.some.injEq] at hproc
          subst hproc
          obtain ⟨cs, hcs⟩ := Option.isSome_iff_exists.mp hch
          obtain ⟨hge, hlt⟩ := findChildrenArray_bounds text afterPath cp cs hcs
          have hpa2 : (extractStringArg text (op + 1)).map
              (fun a => (a.value, a.endIndex)) = some (path, afterPath) := hpa
          rw [Option.map_eq_some'] at hpa2
          obtain ⟨a, ha, haeq⟩ := hpa2
          rw [Prod.mk.injEq] at haeq
          have hee := extractStringArg_endIndex text (op + 1) a ha
          obtain ⟨hv, he⟩ := haeq
          refine ⟨cs, hcs, ?_, ?_⟩
          · show p < cs
            omega
          · show cs < cp
            omega
        | route =>
          simp only [Option.some.injEq] at hproc
          subst hproc
          obtain ⟨cs, hcs⟩ := Option.isSome_iff_exists.mp hch
          obtain ⟨hge, hlt⟩ := findChildrenArray_bounds text _ cp cs hcs
          have hge2 : afterPath ≤ cs := le_trans (afterFile_ge text afterPath) hge
          have hpa2 : (extractStringArg text (op + 1)).map
              (fun a => (a.value, a.endIndex)) = some (path, afterPath) := hpa
          rw [Option.map_eq_some'] at hpa2
          obtain ⟨a, ha, haeq⟩ := hpa2
          rw [Prod.mk.injEq] at haeq
          have hee := extractStringArg_endIndex text (op + 1) a ha
          obtain ⟨hv, he⟩ := haeq
          refine ⟨cs, hcs, ?_, ?_⟩
          · show p < cs
            omega
          · show cs < cp
            omega
        | layout =>
          simp only [Option.some.injEq] at hproc
          subst hproc
          obtain ⟨cs, hcs⟩ := Option.isSome_iff_exists.mp hch
          obtain ⟨hge, hlt⟩ := findChildrenArray_bounds text _ cp cs hcs
          have hge2 : afterPath ≤ cs := le_trans (afterFile_ge text afterPath) hge
          have hpa2 : (some (("", op + 1) : String × Nat)) = some (path, afterPath) := hpa
          rw [Option.some_inj, Prod.mk.injEq] at hpa2
          obtain ⟨hv, he⟩ := hpa2
          refine ⟨cs, hcs, ?_, ?_⟩
          · show p < cs
            omega
          · show cs < cp
            omega

/-- Claim C10: every token in the stream the tree builder consumes is
well-formed: if its hasChildren flag is true then its childrenStartIndex is
defined and lies strictly between the token's startIndex and its endIndex. -/
theorem c10_children_span (text : List Char) (tok : RouteToken)
    (hmem : tok ∈ parseRouteTokens text) (hch : tok.hasChildren = true) :
    ∃ cs, tok.childrenStartIndex = some cs ∧
      tok.startIndex < cs ∧ cs < tok.endIndex := by
  unfold parseRouteTokens at hmem
  rw [mem_sortByStart, List.mem_flatMap] at hmem
  obtain ⟨kp, hkp, hmem2⟩ := hmem
  rw [List.mem_filterMap] at hmem2
  obtain ⟨p, hp, hproc⟩ := hmem2
  exact processOccurrence_children text kp.1 p tok hproc hch

theorem c10_witness :
    ∃ cs, tokLayoutEmpty.childrenStartIndex = some cs ∧
      tokLayoutEmpty.startIndex < cs ∧ cs < tokLayoutEmpty.endIndex :=
  c10_children_span txLayoutEmpty.data tokLayoutEmpty (by decide) (by decide)

end RouteNav
